import Mathlib

/-!
Verification of the citation-metadata enrichment engine
(`pinecone/enrich_chunk_metadata.py` and its helper scripts).

Texts are modelled as `List Char`.  Python string slicing, `in`/`find`
substring search, `str.split()`, `" ".join`, and the two fixed regular
expressions (the page marker `--- PAGE (\d+) ---` and the markup tag
`<[^>]+>`) are embedded as executable list functions.  Python dicts with
optional keys become structures with `Option` fields; a dict value that
may be either a raw section record or a `{main_section, subsection}`
pair becomes the inductive `SectionResult`.
-/

namespace Enrich

/-- Whitespace characters recognised by the `\s` class and `str.strip`
(ASCII range, which is all the corpus contains). -/
def isWS (c : Char) : Bool :=
  c = ' ' || c = '\t' || c = '\n' || c = '\r' || c = '\x0b' || c = '\x0c'

/-- Body of `re.sub(r'\s+', ' ', text)`: every maximal whitespace run
becomes one space.  The flag records whether we are inside a run. -/
def collapseAux : Bool → List Char → List Char
  | _, [] => []
  | inRun, c :: cs =>
    if isWS c then
      if inRun then collapseAux true cs else ' ' :: collapseAux true cs
    else c :: collapseAux false cs

/-- `str.strip()`: drop whitespace from both ends. -/
def stripWS (s : List Char) : List Char :=
  ((s.dropWhile isWS).reverse.dropWhile isWS).reverse

/-- `clean_text` from the source: `re.sub(r'\s+', ' ', text).strip()`. -/
def clean_text (text : List Char) : List Char :=
  stripWS (collapseAux false text)

/-- `str.split()` with no separator: split on whitespace runs, dropping
empty pieces.  `cur` holds the current word reversed. -/
def splitWSAux : List Char → List Char → List (List Char)
  | cur, [] => if cur = [] then [] else [cur.reverse]
  | cur, c :: cs =>
    if isWS c then
      if cur = [] then splitWSAux [] cs else cur.reverse :: splitWSAux [] cs
    else splitWSAux (c :: cur) cs

def splitWS (s : List Char) : List (List Char) :=
  splitWSAux [] s

/-- `int` of a decimal digit string. -/
def digitsToNat (ds : List Char) : Nat :=
  ds.foldl (fun a c => 10 * a + (c.toNat - '0'.toNat)) 0

/-- Does `pat` occur at the very start of `s`? -/
def startsWith : List Char → List Char → Bool
  | [], _ => true
  | _ :: _, [] => false
  | a :: as, b :: bs => a == b && startsWith as bs

/-- Attempt to match the regex `--- PAGE (\d+) ---` at the head of the
list: the 9-character literal `--- PAGE `, a maximal non-empty digit
run, then the 4-character literal ` ---`.  (Backtracking to a shorter
digit run can never succeed, since a digit, not a space, follows it.)
Returns the captured number and the number of characters the match
consumes. -/
def matchMarker (s : List Char) : Option (Nat × Nat) :=
  if startsWith ("--- PAGE ".toList) s then
    if ((s.drop 9).takeWhile Char.isDigit) = [] then none
    else if startsWith (" ---".toList) ((s.drop 9).dropWhile Char.isDigit) then
      some (digitsToNat ((s.drop 9).takeWhile Char.isDigit),
        13 + ((s.drop 9).takeWhile Char.isDigit).length)
    else none
  else none

/-- `re.findall(r'--- PAGE (\d+) ---', s)` (as numbers): leftmost
non-overlapping matches, scanning left to right.  Fuel-indexed so the
function is structurally recursive and kernel-reducible. -/
def scanMarkersF : Nat → List Char → List Nat
  | 0, _ => []
  | _, [] => []
  | fuel + 1, c :: cs =>
    match matchMarker (c :: cs) with
    | some (n, len) => n :: scanMarkersF fuel (List.drop len (c :: cs))
    | none => scanMarkersF fuel cs

def scanMarkers (s : List Char) : List Nat :=
  scanMarkersF s.length s

/-- `extract_page_number` from the source: findall over `text[:position]`,
last match or 1. -/
def extract_page_number (text : List Char) (position : Nat) : Nat :=
  match (scanMarkers (text.take position)).getLast? with
  | some n => n
  | none => 1

/-- Python `s.find(pat)` / `pat in s`: index of the first occurrence. -/
def strFind (pat : List Char) : List Char → Option Nat
  | [] => if startsWith pat [] then some 0 else none
  | c :: s' =>
    if startsWith pat (c :: s') then some 0
    else (strFind pat s').map (· + 1)

/-- Python slice `s[a:b]` for `0 ≤ a ≤ b` (the only shapes the code
produces: both bounds are already clamped). -/
def pySlice (s : List Char) (a b : Nat) : List Char :=
  (s.drop a).take (b - a)

/-- Spec-side notion: `pat` occurs as a contiguous substring of `s`. -/
def Occurs (pat s : List Char) : Prop :=
  ∃ pre post, s = pre ++ pat ++ post

/-- Spec-side notion: `pat` occurs at offset `j` of `s`. -/
def OccAt (pat s : List Char) (j : Nat) : Prop :=
  ∃ post, s.drop j = pat ++ post

/-- One record of the section table (`*_sections.json`).  The loader
reads them with defaults (`.get("start_page_number", 0)` etc.), so every
field is total here. -/
structure SectionRec where
  section_name : List Char
  section_title : List Char
  start_page_number : Nat
  is_subsection : Bool
deriving DecidableEq

/-- The untyped Python return value of `find_section_for_page`: either
the raw first record (the page-before-all-sections fallback, line 85) or
the `{"main_section": ..., "subsection": ...}` dict. -/
inductive SectionResult where
  | raw (r : SectionRec)
  | pair (ms : Option SectionRec) (sub : Option SectionRec)
deriving DecidableEq

/-- Python `max(lst, key=lambda x: x.get("start_page_number", 0))`:
scan keeping the current element unless a strictly larger key appears,
so ties keep the earliest element. -/
def maxByStart (h : SectionRec) (t : List SectionRec) : SectionRec :=
  t.foldl (fun acc s =>
    if acc.start_page_number < s.start_page_number then s else acc) h

/-- `find_section_for_page` from the source. -/
def find_section_for_page (sections_data : List SectionRec) (page_number : Nat) :
    Option SectionResult :=
  match sections_data with
  | [] => none
  | s0 :: rest =>
    match (s0 :: rest).filter (fun s => s.start_page_number ≤ page_number) with
    | [] => some (.raw s0)
    | c :: cs =>
      let mains := (c :: cs).filter (fun s => !s.is_subsection)
      let subs := (c :: cs).filter (fun s => s.is_subsection)
      some (.pair
        (match mains with | [] => none | m :: ms => some (maxByStart m ms))
        (match subs with | [] => none | x :: xs => some (maxByStart x xs)))

/-- Rendering of one section as `name (title)` or just `name`. -/
def formatOneSection (m : SectionRec) : List Char :=
  if m.section_name ≠ m.section_title then
    m.section_name ++ (" (".toList) ++ m.section_title ++ (")".toList)
  else m.section_name

/-- `format_section_info` from the source.  On a raw record the Python
code calls `.get("main_section")` / `.get("subsection")`, both absent
from a record dict, so it renders `"Unknown"`. -/
def format_section_info : Option SectionResult → List Char
  | none => "Unknown".toList
  | some (.raw _) => "Unknown".toList
  | some (.pair ms sub) =>
    let parts :=
      (match ms with | none => [] | some m => [formatOneSection m]) ++
      (match sub with | none => [] | some x => [formatOneSection x])
    match parts with
    | [] => "Unknown".toList
    | p :: ps => List.intercalate (" > ".toList) (p :: ps)

/-- Attempt to match the regex `<[^>]+>` at the head of the list,
returning the remainder after the tag. -/
def matchTag : List Char → Option (List Char)
  | '<' :: rest =>
    match rest.takeWhile (· != '>') with
    | [] => none
    | _ :: _ =>
      match rest.dropWhile (· != '>') with
      | '>' :: r => some r
      | _ => none
  | _ => none

/-- `re.split(r'<[^>]+>', s)`: pieces between leftmost non-overlapping
tag matches (empty pieces included, as in Python).  `acc` is the current
piece reversed; fuel keeps the recursion structural. -/
def splitTagsF : Nat → List Char → List Char → List (List Char)
  | _, acc, [] => [acc.reverse]
  | 0, acc, s => [acc.reverse ++ s]
  | fuel + 1, acc, c :: cs =>
    match matchTag (c :: cs) with
    | some rest => acc.reverse :: splitTagsF fuel [] rest
    | none => splitTagsF fuel (c :: acc) cs

def splitTags (s : List Char) : List (List Char) :=
  splitTagsF s.length [] s

/-- `get_longest_text_fragment` from the source: split on tags, clean
each piece, keep the first piece of maximal cleaned length. -/
def get_longest_text_fragment (text_with_html : List Char) : List Char :=
  (splitTags text_with_html).foldl
    (fun longest frag =>
      let cleaned := clean_text frag
      if longest.length < cleaned.length then cleaned else longest) []

/-- The result dict of `find_fragment_in_pdf`.  Absent dict keys are
`none`. -/
structure MatchResult where
  found : Bool
  exact_match : Option Bool := none
  partial_match : Option Bool := none
  matched_words : Option Nat := none
  position : Option Nat := none
  page_number : Option Nat := none
  context : Option (List Char) := none
  before : Option (List Char) := none
  matched : Option (List Char) := none
  after : Option (List Char) := none
  section_info : Option SectionResult := none
deriving DecidableEq

/-- `if sections_data and page_number:` guard around the section lookup. -/
def sectionLookup (sections_data : List SectionRec) (page_number : Nat) :
    Option SectionResult :=
  if sections_data.isEmpty then none
  else if page_number = 0 then none
  else find_section_for_page sections_data page_number

/-- The `for i in range(len(words), 0, -1)` loop of the fallback branch of
`find_fragment_in_pdf`.  The argument is the current word count `i`. -/
def partialLoop (clean_pdf : List Char) (sections_data : List SectionRec)
    (words : List (List Char)) : Nat → MatchResult
  | 0 => { found := false }
  | i + 1 =>
    let part := List.intercalate [' '] (words.take (i + 1))
    match strFind part clean_pdf with
    | some ps =>
      let pe := ps + part.length
      let page_number := extract_page_number clean_pdf ps
      let cs := ps - 500
      let ce := min clean_pdf.length (pe + 500)
      { found := true
        partial_match := some true
        matched_words := some (i + 1)
        position := some ps
        page_number := some page_number
        context := some (pySlice clean_pdf cs ce)
        before := some (pySlice clean_pdf cs ps)
        matched := some (pySlice clean_pdf ps pe)
        after := some (pySlice clean_pdf pe ce)
        section_info := sectionLookup sections_data page_number }
    | none => partialLoop clean_pdf sections_data words i

/-- `find_fragment_in_pdf` from the source, from the point where the PDF
text has been produced by the collaborating reader (`full_text`). -/
def find_fragment_in_pdf (fragment full_text : List Char)
    (sections_data : List SectionRec) : MatchResult :=
  let clean_fragment := clean_text fragment
  let clean_pdf := clean_text full_text
  match strFind clean_fragment clean_pdf with
  | some start =>
    let stop := start + clean_fragment.length
    let page_number := extract_page_number clean_pdf start
    let cs := start - 1000
    let ce := min clean_pdf.length (stop + 1000)
    { found := true
      exact_match := some true
      position := some start
      page_number := some page_number
      context := some (pySlice clean_pdf cs ce)
      before := some (pySlice clean_pdf cs start)
      matched := some (pySlice clean_pdf start stop)
      after := some (pySlice clean_pdf stop ce)
      section_info := sectionLookup sections_data page_number }
  | none =>
    let words := splitWS clean_fragment
    partialLoop clean_pdf sections_data words words.length

/-- The metadata dict composed by `create_metadata_from_result`; absent
keys are `none`. -/
structure Metadata where
  page_number : Option Nat := none
  hierarchical_section : Option (List Char) := none
  main_section_name : Option (List Char) := none
  main_section_title : Option (List Char) := none
  subsection_name : Option (List Char) := none
  subsection_title : Option (List Char) := none
deriving DecidableEq

/-- `create_metadata_from_result` from the source.  A present `section`
value is always a non-empty dict (raw record or two-key pair), hence
truthy. -/
def create_metadata_from_result (result : MatchResult) : Metadata :=
  match result.section_info with
  | none => { page_number := result.page_number }
  | some si =>
    { page_number := result.page_number
      hierarchical_section := some (format_section_info (some si))
      main_section_name :=
        match si with | .pair (some m) _ => some m.section_name | _ => none
      main_section_title :=
        match si with | .pair (some m) _ => some m.section_title | _ => none
      subsection_name :=
        match si with | .pair _ (some x) => some x.section_name | _ => none
      subsection_title :=
        match si with | .pair _ (some x) => some x.section_title | _ => none }

/-- A chunk as the orchestrator sees it: id plus the `text` metadata
field. -/
structure Chunk where
  id : List Char
  text : List Char
deriving DecidableEq

/-- Outcome of `process_chunk`: the returned boolean, the list of
mutating store calls made, and the match result / metadata it reported. -/
structure ProcOut where
  success : Bool
  writes : List (List Char × Metadata)
  reported : Option (MatchResult × Metadata)
deriving DecidableEq

/-- `update_chunk_metadata` from the source.  `writeOk` models whether
the external store accepts the update; in dry-run mode no mutating call
is made and the function reports success. -/
def update_chunk_metadata (writeOk : Bool) (chunk_id : List Char)
    (metadata_updates : Metadata) (dry_run : Bool) :
    Bool × List (List Char × Metadata) :=
  if dry_run then (true, [])
  else (writeOk, [(chunk_id, metadata_updates)])

/-- `process_chunk` from the source, over the collaborator-supplied
document text and section table. -/
def process_chunk (writeOk : Bool) (chunk : Chunk) (full_text : List Char)
    (sections_data : List SectionRec) (dry_run : Bool) : ProcOut :=
  if chunk.text = [] then ⟨false, [], none⟩
  else
    let longest_fragment := get_longest_text_fragment chunk.text
    if longest_fragment = [] then ⟨false, [], none⟩
    else
      let result := find_fragment_in_pdf longest_fragment full_text sections_data
      if result.found = false then ⟨false, [], none⟩
      else
        let metadata_updates := create_metadata_from_result result
        if metadata_updates = ({} : Metadata) then ⟨false, [], none⟩
        else
          let wr := update_chunk_metadata writeOk chunk.id metadata_updates dry_run
          ⟨wr.1, wr.2, some (result, metadata_updates)⟩

/-- Pairwise compatibility of two potential marker matches inside `s`:
if both positions carry a match and `j` comes first, the first match
ends at or before `j'` starts. -/
def noClash (s : List Char) (j j' : Nat) : Bool :=
  match matchMarker (s.drop j), matchMarker (s.drop j') with
  | some (_, c), some _ => decide (j + c ≤ j')
  | _, _ => true

/-- The document-text invariant of the spec's data model, as far as the
marker geometry goes: occurrences of the page-marker pattern never
overlap.  (The builder interleaves `\n--- PAGE N ---\n` between pages,
so this holds for every real document blob.) -/
def NoOverlap (s : List Char) : Prop :=
  ∀ j, j < s.length → ∀ j', j' < s.length → j < j' → noClash s j j' = true

instance (s : List Char) : Decidable (NoOverlap s) := by
  unfold NoOverlap; infer_instance

/-! ## Substring search: correctness of `strFind` -/

theorem startsWith_iff (pat s : List Char) :
    startsWith pat s = true ↔ ∃ post, s = pat ++ post := by
  induction pat generalizing s with
  | nil => simp [startsWith]
  | cons a as ih =>
    cases s with
    | nil => simp [startsWith]
    | cons b bs =>
      simp only [startsWith, Bool.and_eq_true, beq_iff_eq]
      constructor
      · rintro ⟨rfl, h⟩
        obtain ⟨post, rfl⟩ := (ih bs).mp h
        exact ⟨post, rfl⟩
      · rintro ⟨post, h⟩
        injection h with h1 h2
        exact ⟨h1.symm, (ih bs).mpr ⟨post, h2⟩⟩

theorem occAt_zero (pat s : List Char) :
    OccAt pat s 0 ↔ startsWith pat s = true := by
  rw [startsWith_iff]
  simp [OccAt]

theorem occAt_succ (pat : List Char) (c : Char) (s : List Char) (j : Nat) :
    OccAt pat (c :: s) (j + 1) ↔ OccAt pat s j := by
  simp [OccAt]

theorem strFind_eq_some_iff (pat s : List Char) (p : Nat) :
    strFind pat s = some p ↔
      OccAt pat s p ∧ ∀ q, q < p → ¬ OccAt pat s q := by
  induction s generalizing p with
  | nil =>
    by_cases h : startsWith pat [] = true
    · simp only [strFind, h, if_true]
      constructor
      · intro h'
        injection h' with h'
        subst h'
        exact ⟨(occAt_zero pat []).mpr h, by omega⟩
      · rintro ⟨_, h2⟩
        rcases Nat.eq_zero_or_pos p with rfl | hp
        · rfl
        · exact absurd ((occAt_zero pat []).mpr h) (h2 0 hp)
    · rw [Bool.not_eq_true] at h
      simp only [strFind, h, Bool.false_eq_true, if_false]
      constructor
      · intro h'; cases h'
      · rintro ⟨h1, _⟩
        obtain ⟨post, hp⟩ := h1
        simp only [List.drop_nil] at hp
        rcases List.append_eq_nil.mp hp.symm with ⟨rfl, _⟩
        simp [startsWith] at h
  | cons c s' ih =>
    by_cases h : startsWith pat (c :: s') = true
    · simp only [strFind, h, if_true]
      constructor
      · intro h'
        injection h' with h'
        subst h'
        exact ⟨(occAt_zero pat (c :: s')).mpr h, by omega⟩
      · rintro ⟨_, h2⟩
        rcases Nat.eq_zero_or_pos p with rfl | hp
        · rfl
        · exact absurd ((occAt_zero pat (c :: s')).mpr h) (h2 0 hp)
    · rw [Bool.not_eq_true] at h
      have hP : ¬ OccAt pat (c :: s') 0 := fun hc => by
        rw [occAt_zero, h] at hc
        cases hc
      simp only [strFind, h, Bool.false_eq_true, if_false]
      cases p with
      | zero =>
        constructor
        · intro h'
          simp only [Option.map_eq_some'] at h'
          obtain ⟨_, _, h2⟩ := h'
          omega
        · rintro ⟨h1, _⟩
          exact absurd h1 hP
      | succ p' =>
        constructor
        · intro h'
          simp only [Option.map_eq_some'] at h'
          obtain ⟨q, hq, hq2⟩ := h'
          have hq' : q = p' := by omega
          subst hq'
          obtain ⟨h1, h2⟩ := (ih q).mp hq
          refine ⟨(occAt_succ pat c s' q).mpr h1, ?_⟩
          intro q2 hqp
          cases q2 with
          | zero => exact hP
          | succ q' =>
            intro hc
            exact h2 q' (by omega) ((occAt_succ pat c s' q').mp hc)
        · rintro ⟨h1, h2⟩
          have hmain : strFind pat s' = some p' := by
            refine (ih p').mpr ⟨(occAt_succ pat c s' p').mp h1, ?_⟩
            intro q hq hc
            exact h2 (q + 1) (by omega) ((occAt_succ pat c s' q).mpr hc)
          simp [hmain]

theorem strFind_eq_none_iff (pat s : List Char) :
    strFind pat s = none ↔ ∀ j, ¬ OccAt pat s j := by
  induction s with
  | nil =>
    by_cases h : startsWith pat [] = true
    · simp only [strFind, h, if_true]
      constructor
      · intro h'; cases h'
      · intro h'
        exact absurd ((occAt_zero pat []).mpr h) (h' 0)
    · rw [Bool.not_eq_true] at h
      simp only [strFind, h, Bool.false_eq_true, if_false]
      constructor
      · intro _ j hc
        obtain ⟨post, hp⟩ := hc
        simp only [List.drop_nil] at hp
        rcases List.append_eq_nil.mp hp.symm with ⟨rfl, _⟩
        simp [startsWith] at h
      · intro _; trivial
  | cons c s' ih =>
    by_cases h : startsWith pat (c :: s') = true
    · simp only [strFind, h, if_true]
      constructor
      · intro h'; cases h'
      · intro h'
        exact absurd ((occAt_zero pat (c :: s')).mpr h) (h' 0)
    · rw [Bool.not_eq_true] at h
      simp only [strFind, h, Bool.false_eq_true, if_false, Option.map_eq_none']
      rw [ih]
      constructor
      · intro h' j
        cases j with
        | zero =>
          intro hc
          rw [occAt_zero, h] at hc
          cases hc
        | succ j' => exact fun hc => h' j' ((occAt_succ pat c s' j').mp hc)
      · intro h' j hc
        exact h' (j + 1) ((occAt_succ pat c s' j).mpr hc)

theorem strFind_isSome_of_occurs {pat s : List Char} (h : Occurs pat s) :
    ∃ p, strFind pat s = some p := by
  cases hf : strFind pat s with
  | some p => exact ⟨p, rfl⟩
  | none =>
    obtain ⟨pre, post, rfl⟩ := h
    have hocc : OccAt pat (pre ++ pat ++ post) pre.length :=
      ⟨post, by rw [List.append_assoc]; exact List.drop_left pre (pat ++ post)⟩
    exact absurd hocc ((strFind_eq_none_iff pat _).mp hf pre.length)

theorem not_occurs_of_strFind_eq_none {pat s : List Char}
    (h : strFind pat s = none) : ¬ Occurs pat s := by
  rintro ⟨pre, post, rfl⟩
  obtain ⟨_, hf⟩ := strFind_isSome_of_occurs ⟨pre, post, rfl⟩
  rw [h] at hf
  cases hf

theorem strFind_eq_none_of_not_occurs {pat s : List Char}
    (h : ¬ Occurs pat s) : strFind pat s = none := by
  cases hf : strFind pat s with
  | none => rfl
  | some p =>
    obtain ⟨h1, _⟩ := (strFind_eq_some_iff pat s p).mp hf
    obtain ⟨post, hp⟩ := h1
    exact absurd ⟨s.take p, post, by rw [List.append_assoc, ← hp, List.take_append_drop]⟩ h

/-! ## The fragment locator -/

/-- C1.  If the normalized fragment occurs as a contiguous substring of
the normalized document text, `find_fragment_in_pdf` reports
`found = true`, an exact match, the offset of the first occurrence, and
a context window of 1000 characters on either side clamped to the
document bounds. -/
theorem exact_match_first_occurrence
    (fragment full_text : List Char) (sections_data : List SectionRec)
    (h : Occurs (clean_text fragment) (clean_text full_text)) :
    ∃ p,
      (find_fragment_in_pdf fragment full_text sections_data).found = true ∧
      (find_fragment_in_pdf fragment full_text sections_data).exact_match = some true ∧
      (find_fragment_in_pdf fragment full_text sections_data).position = some p ∧
      OccAt (clean_text fragment) (clean_text full_text) p ∧
      (∀ q, q < p → ¬ OccAt (clean_text fragment) (clean_text full_text) q) ∧
      (find_fragment_in_pdf fragment full_text sections_data).context =
        some (pySlice (clean_text full_text) (p - 1000)
          (min (clean_text full_text).length
            (p + (clean_text fragment).length + 1000))) := by
  obtain ⟨p, hp⟩ := strFind_isSome_of_occurs h
  obtain ⟨h1, h2⟩ := (strFind_eq_some_iff _ _ _).mp hp
  exact ⟨p, by simp [find_fragment_in_pdf, hp], by simp [find_fragment_in_pdf, hp],
    by simp [find_fragment_in_pdf, hp], h1, h2, by simp [find_fragment_in_pdf, hp]⟩

theorem exact_match_first_occurrence_witness :
    Occurs (clean_text ("b c".toList)) (clean_text ("a b c d".toList)) ∧
    (∃ p,
      (find_fragment_in_pdf ("b c".toList) ("a b c d".toList) []).found = true ∧
      (find_fragment_in_pdf ("b c".toList) ("a b c d".toList) []).exact_match = some true ∧
      (find_fragment_in_pdf ("b c".toList) ("a b c d".toList) []).position = some p ∧
      OccAt (clean_text ("b c".toList)) (clean_text ("a b c d".toList)) p ∧
      (∀ q, q < p → ¬ OccAt (clean_text ("b c".toList)) (clean_text ("a b c d".toList)) q) ∧
      (find_fragment_in_pdf ("b c".toList) ("a b c d".toList) []).context =
        some (pySlice (clean_text ("a b c d".toList)) (p - 1000)
          (min (clean_text ("a b c d".toList)).length
            (p + (clean_text ("b c".toList)).length + 1000)))) :=
  ⟨⟨"a ".toList, " d".toList, by decide⟩,
    exact_match_first_occurrence ("b c".toList) ("a b c d".toList) []
      ⟨"a ".toList, " d".toList, by decide⟩⟩

/-- Skipping the word counts whose joined word-prefix does not occur. -/
theorem partialLoop_skip (cp : List Char) (sd : List SectionRec)
    (words : List (List Char)) (k m : Nat) (hkm : k ≤ m)
    (hnone : ∀ j, k < j → j ≤ m →
      strFind (List.intercalate [' '] (words.take j)) cp = none) :
    partialLoop cp sd words m = partialLoop cp sd words k := by
  induction m with
  | zero =>
    have hk0 : k = 0 := by omega
    subst hk0
    rfl
  | succ m' ihm =>
    rcases Nat.eq_or_lt_of_le hkm with rfl | hlt
    · rfl
    · have hn := hnone (m' + 1) hlt (le_refl _)
      have hstep : partialLoop cp sd words (m' + 1) = partialLoop cp sd words m' := by
        simp [partialLoop, hn]
      rw [hstep]
      exact ihm (by omega) (fun j hj1 hj2 => hnone j hj1 (by omega))

/-- C2.  If the normalized fragment is not a substring, the locator runs
the longest-matching-prefix search: given that the space-joined prefix of
`k` words occurs but no longer prefix does, it returns a partial match
with `matched_words = k`, the prefix's first occurrence offset, and a
500-character context window. -/
theorem fallback_longest_word_pre
    (fragment full_text : List Char) (sections_data : List SectionRec) (k : Nat)
    (hne : ¬ Occurs (clean_text fragment) (clean_text full_text))
    (hk1 : 1 ≤ k) (hk2 : k ≤ (splitWS (clean_text fragment)).length)
    (hocc : Occurs (List.intercalate [' '] ((splitWS (clean_text fragment)).take k))
      (clean_text full_text))
    (hmax : ∀ j, k < j → j ≤ (splitWS (clean_text fragment)).length →
      ¬ Occurs (List.intercalate [' '] ((splitWS (clean_text fragment)).take j))
        (clean_text full_text)) :
    ∃ p,
      (find_fragment_in_pdf fragment full_text sections_data).found = true ∧
      (find_fragment_in_pdf fragment full_text sections_data).exact_match = none ∧
      (find_fragment_in_pdf fragment full_text sections_data).partial_match = some true ∧
      (find_fragment_in_pdf fragment full_text sections_data).matched_words = some k ∧
      (find_fragment_in_pdf fragment full_text sections_data).position = some p ∧
      OccAt (List.intercalate [' '] ((splitWS (clean_text fragment)).take k))
        (clean_text full_text) p ∧
      (∀ q, q < p →
        ¬ OccAt (List.intercalate [' '] ((splitWS (clean_text fragment)).take k))
          (clean_text full_text) q) ∧
      (find_fragment_in_pdf fragment full_text sections_data).context =
        some (pySlice (clean_text full_text) (p - 500)
          (min (clean_text full_text).length
            (p + (List.intercalate [' ']
              ((splitWS (clean_text fragment)).take k)).length + 500))) := by
  have hfe : strFind (clean_text fragment) (clean_text full_text) = none :=
    strFind_eq_none_of_not_occurs hne
  have hunfold : find_fragment_in_pdf fragment full_text sections_data =
      partialLoop (clean_text full_text) sections_data
        (splitWS (clean_text fragment)) (splitWS (clean_text fragment)).length := by
    simp [find_fragment_in_pdf, hfe]
  have hskip := partialLoop_skip (clean_text full_text) sections_data
    (splitWS (clean_text fragment)) k (splitWS (clean_text fragment)).length hk2
    (fun j hj1 hj2 => strFind_eq_none_of_not_occurs (hmax j hj1 hj2))
  obtain ⟨k', rfl⟩ : ∃ k', k = k' + 1 := ⟨k - 1, by omega⟩
  obtain ⟨p, hp⟩ := strFind_isSome_of_occurs hocc
  obtain ⟨h1, h2⟩ := (strFind_eq_some_iff _ _ _).mp hp
  rw [hunfold, hskip]
  exact ⟨p, by simp [partialLoop, hp], by simp [partialLoop, hp],
    by simp [partialLoop, hp], by simp [partialLoop, hp], by simp [partialLoop, hp],
    h1, h2, by simp [partialLoop, hp]⟩

theorem fallback_longest_word_pre_witness :
    (¬ Occurs (clean_text ("alpha zeta".toList)) (clean_text ("x alpha y".toList))) ∧
    1 ≤ 1 ∧ 1 ≤ (splitWS (clean_text ("alpha zeta".toList))).length ∧
    Occurs (List.intercalate [' '] ((splitWS (clean_text ("alpha zeta".toList))).take 1))
      (clean_text ("x alpha y".toList)) ∧
    (∃ p,
      (find_fragment_in_pdf ("alpha zeta".toList) ("x alpha y".toList) []).found = true ∧
      (find_fragment_in_pdf ("alpha zeta".toList) ("x alpha y".toList) []).exact_match = none ∧
      (find_fragment_in_pdf ("alpha zeta".toList) ("x alpha y".toList) []).partial_match = some true ∧
      (find_fragment_in_pdf ("alpha zeta".toList) ("x alpha y".toList) []).matched_words = some 1 ∧
      (find_fragment_in_pdf ("alpha zeta".toList) ("x alpha y".toList) []).position = some p ∧
      OccAt (List.intercalate [' '] ((splitWS (clean_text ("alpha zeta".toList))).take 1))
        (clean_text ("x alpha y".toList)) p ∧
      (∀ q, q < p →
        ¬ OccAt (List.intercalate [' '] ((splitWS (clean_text ("alpha zeta".toList))).take 1))
          (clean_text ("x alpha y".toList)) q) ∧
      (find_fragment_in_pdf ("alpha zeta".toList) ("x alpha y".toList) []).context =
        some (pySlice (clean_text ("x alpha y".toList)) (p - 500)
          (min (clean_text ("x alpha y".toList)).length
            (p + (List.intercalate [' ']
              ((splitWS (clean_text ("alpha zeta".toList))).take 1)).length + 500)))) :=
  ⟨not_occurs_of_strFind_eq_none (by decide), le_refl 1, by decide,
    ⟨"x ".toList, " y".toList, by decide⟩,
    fallback_longest_word_pre ("alpha zeta".toList) ("x alpha y".toList) [] 1
      (not_occurs_of_strFind_eq_none (by decide)) (le_refl 1) (by decide)
      ⟨"x ".toList, " y".toList, by decide⟩
      (fun j hj1 hj2 => by
        have hl : (splitWS (clean_text ("alpha zeta".toList))).length = 2 := by decide
        rw [hl] at hj2
        have hj : j = 2 := by omega
        subst hj
        exact not_occurs_of_strFind_eq_none (by decide))⟩

/-- C7.  If neither the fragment nor any of its word-prefixes occurs in
the document text, the locator returns the plain `found = false` record
(a normal value, not an exception). -/
theorem locator_not_found
    (fragment full_text : List Char) (sections_data : List SectionRec)
    (hne : ¬ Occurs (clean_text fragment) (clean_text full_text))
    (hall : ∀ j, 1 ≤ j → j ≤ (splitWS (clean_text fragment)).length →
      ¬ Occurs (List.intercalate [' '] ((splitWS (clean_text fragment)).take j))
        (clean_text full_text)) :
    find_fragment_in_pdf fragment full_text sections_data =
      ({ found := false } : MatchResult) := by
  have hfe : strFind (clean_text fragment) (clean_text full_text) = none :=
    strFind_eq_none_of_not_occurs hne
  have hunfold : find_fragment_in_pdf fragment full_text sections_data =
      partialLoop (clean_text full_text) sections_data
        (splitWS (clean_text fragment)) (splitWS (clean_text fragment)).length := by
    simp [find_fragment_in_pdf, hfe]
  have hskip := partialLoop_skip (clean_text full_text) sections_data
    (splitWS (clean_text fragment)) 0 (splitWS (clean_text fragment)).length
    (Nat.zero_le _)
    (fun j hj1 hj2 => strFind_eq_none_of_not_occurs (hall j (by omega) hj2))
  rw [hunfold, hskip]
  rfl

theorem locator_not_found_witness :
    (¬ Occurs (clean_text ("qq zz".toList)) (clean_text ("abc".toList))) ∧
    find_fragment_in_pdf ("qq zz".toList) ("abc".toList) [] =
      ({ found := false } : MatchResult) :=
  ⟨not_occurs_of_strFind_eq_none (by decide),
    locator_not_found ("qq zz".toList) ("abc".toList) []
      (not_occurs_of_strFind_eq_none (by decide))
      (fun j hj1 hj2 => by
        have hl : (splitWS (clean_text ("qq zz".toList))).length = 2 := by decide
        rw [hl] at hj2
        have hj : j = 1 ∨ j = 2 := by omega
        rcases hj with rfl | rfl
        · exact not_occurs_of_strFind_eq_none (by decide)
        · exact not_occurs_of_strFind_eq_none (by decide))⟩

/-! ## The section table -/

theorem maxByStart_mem (t : List SectionRec) (h : SectionRec) :
    maxByStart h t ∈ h :: t := by
  induction t generalizing h with
  | nil => simp [maxByStart]
  | cons s ss ih =>
    by_cases hc : h.start_page_number < s.start_page_number
    · have hstep : maxByStart h (s :: ss) = maxByStart s ss := by
        simp [maxByStart, hc]
      rw [hstep]
      rcases List.mem_cons.mp (ih s) with he | ht
      · rw [he]; simp
      · simp [List.mem_cons.mpr (Or.inr ht)]
    · have hstep : maxByStart h (s :: ss) = maxByStart h ss := by
        simp [maxByStart, hc]
      rw [hstep]
      rcases List.mem_cons.mp (ih h) with he | ht
      · rw [he]; simp
      · simp [List.mem_cons.mpr (Or.inr ht)]

/-- C4.  The subsection slot of a `find_section_for_page` result never
holds a record whose `start_page_number` exceeds the queried page (the
degenerate fallback returns the raw first record, not a subsection
slot). -/
theorem sub_slot_le_page (sections_data : List SectionRec) (page : Nat)
    (m : Option SectionRec) (sub : SectionRec)
    (h : find_section_for_page sections_data page = some (.pair m (some sub))) :
    sub.start_page_number ≤ page := by
  cases sections_data with
  | nil => simp [find_section_for_page] at h
  | cons s0 rest =>
    simp only [find_section_for_page] at h
    cases hf : (s0 :: rest).filter (fun s => decide (s.start_page_number ≤ page)) with
    | nil =>
      rw [hf] at h
      simp at h
    | cons c cs =>
      rw [hf] at h
      simp only at h
      cases hs : (c :: cs).filter (fun s => s.is_subsection) with
      | nil =>
        rw [hs] at h
        simp at h
      | cons x xs =>
        rw [hs] at h
        simp only [Option.some_inj, SectionResult.pair.injEq, Option.some_inj] at h
        have hmem : sub ∈ x :: xs := by
          rw [← h.2]
          exact maxByStart_mem xs x
        rw [← hs] at hmem
        have hmem2 : sub ∈ c :: cs := (List.mem_filter.mp hmem).1
        rw [← hf] at hmem2
        have := (List.mem_filter.mp hmem2).2
        simpa using this

theorem sub_slot_le_page_witness :
    find_section_for_page
        [⟨("Part I".toList), ("Part I".toList), 1, false⟩,
         ⟨("Item 1".toList), ("Business".toList), 2, true⟩] 5 =
      some (.pair (some ⟨("Part I".toList), ("Part I".toList), 1, false⟩)
        (some ⟨("Item 1".toList), ("Business".toList), 2, true⟩)) ∧
    (⟨("Item 1".toList), ("Business".toList), 2, true⟩ : SectionRec).start_page_number ≤ 5 :=
  ⟨by decide,
    sub_slot_le_page
      [⟨("Part I".toList), ("Part I".toList), 1, false⟩,
       ⟨("Item 1".toList), ("Business".toList), 2, true⟩] 5
      (some ⟨("Part I".toList), ("Part I".toList), 1, false⟩)
      ⟨("Item 1".toList), ("Business".toList), 2, true⟩ (by decide)⟩

/-- C6 evidence.  When the queried page precedes every section, the code
returns the raw first record, and the downstream formatter — which looks
for `main_section` / `subsection` keys that a raw record does not have —
renders it as `"Unknown"`, i.e. exactly the unresolved rendering, not as
a resolved section. -/
theorem fallback_renders_unknown :
    find_section_for_page [⟨("Item 1".toList), ("Business".toList), 3, false⟩] 1 =
      some (.raw ⟨("Item 1".toList), ("Business".toList), 3, false⟩) ∧
    format_section_info
      (find_section_for_page [⟨("Item 1".toList), ("Business".toList), 3, false⟩] 1) =
      ("Unknown".toList) ∧
    format_section_info none = ("Unknown".toList) :=
  ⟨by decide, by decide, by decide⟩

/-- C5 evidence.  A located fragment whose page precedes all sections
gets a metadata update whose `hierarchical_section` field is the
placeholder `"Unknown"` — a written field standing in for a missing
resolution. -/
theorem metadata_written_with_placeholder :
    (find_fragment_in_pdf ("alpha beta".toList)
        ("--- PAGE 1 --- alpha beta gamma".toList)
        [⟨("Item 1".toList), ("Business".toList), 3, false⟩]).found = true ∧
    create_metadata_from_result
      (find_fragment_in_pdf ("alpha beta".toList)
        ("--- PAGE 1 --- alpha beta gamma".toList)
        [⟨("Item 1".toList), ("Business".toList), 3, false⟩]) =
      { page_number := some 1, hierarchical_section := some ("Unknown".toList) } :=
  ⟨by decide, by decide⟩

/-! ## The orchestrator: dry-run is a faithful preview -/

/-- C10.  Dry-run processing reports exactly the same match result and
composed metadata as a live run on the same inputs, and makes no call to
the metadata writer's mutating path; only the final write differs. -/
theorem dry_run_faithful (writeOk : Bool) (chunk : Chunk) (full_text : List Char)
    (sections_data : List SectionRec) :
    (process_chunk writeOk chunk full_text sections_data true).reported =
      (process_chunk writeOk chunk full_text sections_data false).reported ∧
    (process_chunk writeOk chunk full_text sections_data true).writes = [] := by
  constructor <;>
    (simp only [process_chunk, update_chunk_metadata]; split_ifs <;> simp)

/-! ## The fragment selector -/

theorem splitTagsF_ne_nil (fuel : Nat) (acc s : List Char) :
    splitTagsF fuel acc s ≠ [] := by
  induction fuel generalizing acc s with
  | zero => cases s <;> simp [splitTagsF]
  | succ f ih =>
    cases s with
    | nil => simp [splitTagsF]
    | cons c cs =>
      cases h : matchTag (c :: cs) with
      | some rest => simp [splitTagsF, h]
      | none => simpa [splitTagsF, h] using ih (c :: acc) cs

theorem foldl_longest (l : List (List Char)) (acc : List Char) :
    ((l.foldl (fun longest frag =>
        let cleaned := clean_text frag
        if longest.length < cleaned.length then cleaned else longest) acc = acc) ∨
      (l.foldl (fun longest frag =>
        let cleaned := clean_text frag
        if longest.length < cleaned.length then cleaned else longest) acc
          ∈ l.map clean_text)) ∧
    acc.length ≤ (l.foldl (fun longest frag =>
      let cleaned := clean_text frag
      if longest.length < cleaned.length then cleaned else longest) acc).length ∧
    ∀ x ∈ l.map clean_text,
      x.length ≤ (l.foldl (fun longest frag =>
        let cleaned := clean_text frag
        if longest.length < cleaned.length then cleaned else longest) acc).length := by
  induction l generalizing acc with
  | nil => exact ⟨Or.inl rfl, le_refl _, by simp⟩
  | cons f fs ih =>
    obtain ⟨hmem, hle, hall⟩ := ih
      (if acc.length < (clean_text f).length then clean_text f else acc)
    have hstep : (f :: fs).foldl (fun longest frag =>
        let cleaned := clean_text frag
        if longest.length < cleaned.length then cleaned else longest) acc =
      fs.foldl (fun longest frag =>
        let cleaned := clean_text frag
        if longest.length < cleaned.length then cleaned else longest)
        (if acc.length < (clean_text f).length then clean_text f else acc) := rfl
    rw [hstep]
    refine ⟨?_, ?_, ?_⟩
    · rcases hmem with he | hm
      · rw [he]
        by_cases hc : acc.length < (clean_text f).length
        · simp [hc]
        · simp [hc]
      · exact Or.inr (by rw [List.map_cons]; exact List.mem_cons.mpr (Or.inr hm))
    · refine le_trans ?_ hle
      by_cases hc : acc.length < (clean_text f).length
      · simp [hc]; omega
      · simp [hc]
    · intro x hx
      rw [List.map_cons] at hx
      rcases List.mem_cons.mp hx with he | hm
      · subst he
        refine le_trans ?_ hle
        by_cases hc : acc.length < (clean_text f).length
        · simp [hc]
        · simp [hc]; omega
      · exact hall x hm

theorem splitTagsF_no_tag (s : List Char) : ∀ fuel acc, s.length ≤ fuel →
    (∀ j, j < s.length → matchTag (s.drop j) = none) →
    splitTagsF fuel acc s = [acc.reverse ++ s] := by
  induction s with
  | nil =>
    intro fuel acc _ _
    cases fuel <;> simp [splitTagsF]
  | cons c cs ih =>
    intro fuel acc hf hnone
    cases fuel with
    | zero => simp at hf
    | succ f =>
      have h0 : matchTag (c :: cs) = none := by
        have := hnone 0 (by simp)
        simpa using this
      have hstep : splitTagsF (f + 1) acc (c :: cs) = splitTagsF f (c :: acc) cs := by
        simp [splitTagsF, h0]
      rw [hstep, ih f (c :: acc) (by simpa using hf)
        (fun j hj => by
          have := hnone (j + 1) (by simp; omega)
          simpa using this)]
      simp

/-- C8.  The selector's result is one of the tag-split pieces after
normalization, of maximal normalized length; on markup-free input it is
the whole normalized text. -/
theorem selector_longest_piece (t : List Char) :
    (get_longest_text_fragment t ∈ (splitTags t).map clean_text ∧
      ∀ x ∈ (splitTags t).map clean_text,
        x.length ≤ (get_longest_text_fragment t).length) ∧
    ((∀ j, j < t.length → matchTag (t.drop j) = none) →
      get_longest_text_fragment t = clean_text t) := by
  constructor
  · obtain ⟨hmem, _, hall⟩ := foldl_longest (splitTags t) []
    have hglf : get_longest_text_fragment t = (splitTags t).foldl (fun longest frag =>
        let cleaned := clean_text frag
        if longest.length < cleaned.length then cleaned else longest) [] := rfl
    refine ⟨?_, by rw [hglf]; exact hall⟩
    rw [hglf]
    rcases hmem with he | hm
    · rw [he]
      obtain ⟨y, ys, hs⟩ : ∃ y ys, splitTags t = y :: ys := by
        cases h' : splitTags t with
        | nil =>
          exfalso
          have h'' : splitTagsF t.length [] t = [] := h'
          exact splitTagsF_ne_nil t.length [] t h''
        | cons y ys => exact ⟨y, ys, rfl⟩
      have hy : clean_text y ∈ (splitTags t).map clean_text := by
        rw [hs]
        exact List.mem_map_of_mem clean_text (List.mem_cons_self y ys)
      have hy0 := hall (clean_text y) hy
      rw [he] at hy0
      have hy1 : clean_text y = [] := List.eq_nil_of_length_eq_zero (by simpa using hy0)
      rw [hs, List.map_cons, hy1]
      exact List.mem_cons_self [] (ys.map clean_text)
    · exact hm
  · intro hno
    have hsplit : splitTags t = [t] := by
      have := splitTagsF_no_tag t t.length [] (le_refl _) hno
      simpa [splitTags] using this
    have hglf : get_longest_text_fragment t = (splitTags t).foldl (fun longest frag =>
        let cleaned := clean_text frag
        if longest.length < cleaned.length then cleaned else longest) [] := rfl
    rw [hglf, hsplit]
    simp only [List.foldl]
    by_cases hc : (clean_text t).length = 0
    · have : clean_text t = [] := List.eq_nil_of_length_eq_zero hc
      simp [this]
    · simp [Nat.pos_of_ne_zero hc]

theorem selector_longest_piece_witness :
    (∀ j, j < ("a  b".toList).length → matchTag (("a  b".toList).drop j) = none) ∧
    get_longest_text_fragment ("a  b".toList) = clean_text ("a  b".toList) :=
  ⟨by decide, (selector_longest_piece ("a  b".toList)).2 (by decide)⟩

/-! ## The page marker index -/

theorem takeWhile_digits_append (ds : List Char) (rest : List Char)
    (h : ∀ c ∈ ds, c.isDigit = true) :
    (ds ++ ' ' :: rest).takeWhile Char.isDigit = ds ∧
    (ds ++ ' ' :: rest).dropWhile Char.isDigit = ' ' :: rest := by
  induction ds with
  | nil =>
    have hsp : Char.isDigit ' ' = false := by decide
    constructor <;> simp [List.takeWhile_cons, List.dropWhile_cons, hsp]
  | cons d ds' ih =>
    have hd : Char.isDigit d = true := h d (by simp)
    obtain ⟨ih1, ih2⟩ := ih (fun c hc => h c (by simp [hc]))
    constructor <;> simp [List.takeWhile_cons, List.dropWhile_cons, hd, ih1, ih2]

theorem matchMarker_iff (s : List Char) (n len : Nat) :
    matchMarker s = some (n, len) ↔
      ∃ ds rest, ds ≠ [] ∧ (∀ c ∈ ds, c.isDigit = true) ∧
        s = ("--- PAGE ".toList) ++ ds ++ (" ---".toList) ++ rest ∧
        n = digitsToNat ds ∧ len = 13 + ds.length := by
  constructor
  · intro h
    unfold matchMarker at h
    by_cases h1 : startsWith ("--- PAGE ".toList) s = true
    · rw [if_pos h1] at h
      by_cases h2 : ((s.drop 9).takeWhile Char.isDigit) = []
      · rw [if_pos h2] at h
        cases h
      · rw [if_neg h2] at h
        by_cases h3 : startsWith (" ---".toList) ((s.drop 9).dropWhile Char.isDigit) = true
        · rw [if_pos h3] at h
          simp only [Option.some_inj, Prod.mk.injEq] at h
          obtain ⟨post, hs⟩ := (startsWith_iff _ _).mp h1
          have h9 : ("--- PAGE ".toList).length = 9 := by decide
          have hdrop : s.drop 9 = post := by
            rw [hs, ← h9, List.drop_left]
          obtain ⟨rest, hrest⟩ := (startsWith_iff _ _).mp h3
          refine ⟨post.takeWhile Char.isDigit, rest, ?_, ?_, ?_, ?_, ?_⟩
          · rw [hdrop] at h2
            exact h2
          · exact fun c hc => List.mem_takeWhile_imp hc
          · rw [hs]
            conv_lhs => rw [← List.takeWhile_append_dropWhile Char.isDigit post]
            rw [hdrop] at hrest
            rw [hrest]
            simp [List.append_assoc]
          · rw [← h.1, hdrop]
          · rw [← h.2, hdrop]
        · rw [if_neg h3] at h
          cases h
    · rw [if_neg h1] at h
      cases h
  · rintro ⟨ds, rest, hne, hdig, rfl, rfl, rfl⟩
    have h9 : ("--- PAGE ".toList).length = 9 := by decide
    have hpat : ((" ---").toList) = ' ' :: '-' :: '-' :: '-' :: [] := by decide
    have hsw : startsWith ("--- PAGE ".toList)
        (("--- PAGE ".toList) ++ ds ++ (" ---".toList) ++ rest) = true :=
      (startsWith_iff _ _).mpr ⟨ds ++ (" ---".toList) ++ rest, by simp [List.append_assoc]⟩
    have hdrop : (("--- PAGE ".toList) ++ ds ++ (" ---".toList) ++ rest).drop 9 =
        ds ++ ' ' :: ('-' :: '-' :: '-' :: rest) := by
      rw [show ("--- PAGE ".toList) ++ ds ++ (" ---".toList) ++ rest =
        ("--- PAGE ".toList) ++ (ds ++ ' ' :: ('-' :: '-' :: '-' :: rest)) from by
          rw [hpat]
          simp [List.append_assoc], ← h9, List.drop_left]
    obtain ⟨htw, hdw⟩ := takeWhile_digits_append ds ('-' :: '-' :: '-' :: rest) hdig
    have hfin : startsWith ((" ---").toList) (' ' :: '-' :: '-' :: '-' :: rest) = true :=
      (startsWith_iff _ _).mpr ⟨rest, by rw [hpat]; rfl⟩
    unfold matchMarker
    rw [if_pos hsw, hdrop, htw, hdw, if_neg hne, if_pos hfin]

theorem matchMarker_some_len {s : List Char} {n len : Nat}
    (h : matchMarker s = some (n, len)) : 14 ≤ len ∧ len ≤ s.length := by
  obtain ⟨ds, rest, hne, _, rfl, _, rfl⟩ := (matchMarker_iff _ _ _).mp h
  have hds : 1 ≤ ds.length := List.length_pos.mpr hne
  have h9 : ("--- PAGE ".toList).length = 9 := by decide
  have h4 : ((" ---").toList).length = 4 := by decide
  refine ⟨by omega, ?_⟩
  simp only [List.length_append, h9, h4]
  try omega

theorem matchMarker_take_reflect {s : List Char} {a n len : Nat}
    (h : matchMarker (s.take a) = some (n, len)) :
    len ≤ a ∧ matchMarker s = some (n, len) := by
  obtain ⟨ds, rest, hne, hdig, heq, hn, hlen⟩ := (matchMarker_iff _ _ _).mp h
  have hlen2 := matchMarker_some_len h
  have htl : (s.take a).length ≤ a := by
    rw [List.length_take]
    omega
  refine ⟨by omega, (matchMarker_iff _ _ _).mpr
    ⟨ds, rest ++ s.drop a, hne, hdig, ?_, hn, hlen⟩⟩
  conv_lhs => rw [← List.take_append_drop a s]
  rw [heq]
  simp [List.append_assoc]

theorem matchMarker_take_preserve {s : List Char} {a n len : Nat}
    (h : matchMarker s = some (n, len)) (hle : len ≤ a) :
    matchMarker (s.take a) = some (n, len) := by
  obtain ⟨ds, rest, hne, hdig, heq, hn, hlen⟩ := (matchMarker_iff _ _ _).mp h
  refine (matchMarker_iff _ _ _).mpr ⟨ds, rest.take (a - len), hne, hdig, ?_, hn, hlen⟩
  rw [heq]
  have h9 : ("--- PAGE ".toList).length = 9 := by decide
  have h4 : ((" ---").toList).length = 4 := by decide
  rw [show ("--- PAGE ".toList) ++ ds ++ (" ---".toList) ++ rest =
    (("--- PAGE ".toList) ++ ds ++ (" ---".toList)) ++ rest from by
      simp [List.append_assoc]]
  rw [List.take_append_eq_append_take]
  have hX : (("--- PAGE ".toList) ++ ds ++ (" ---".toList)).length = len := by
    simp only [List.length_append, h9, h4]
    omega
  rw [List.take_of_length_le (by omega), hX]

theorem matchMarker_drop_lt {s : List Char} {j n len : Nat}
    (h : matchMarker (s.drop j) = some (n, len)) : j < s.length := by
  have h1 := matchMarker_some_len h
  have h2 : (s.drop j).length = s.length - j := List.length_drop j s
  omega

theorem noOverlap_apply {s : List Char} {j j' n c n' c' : Nat}
    (hno : NoOverlap s) (h1 : matchMarker (s.drop j) = some (n, c))
    (h2 : matchMarker (s.drop j') = some (n', c')) (hjj : j < j') :
    j + c ≤ j' := by
  have hj := matchMarker_drop_lt h1
  have hj' := matchMarker_drop_lt h2
  have := hno j hj j' hj' hjj
  unfold noClash at this
  rw [h1, h2] at this
  simpa using this

theorem noOverlap_of (s : List Char)
    (h : ∀ j j' n c n' c', j < j' → matchMarker (s.drop j) = some (n, c) →
      matchMarker (s.drop j') = some (n', c') → j + c ≤ j') :
    NoOverlap s := by
  intro j _ j' _ hjj
  unfold noClash
  cases h1 : matchMarker (s.drop j) with
  | none => simp
  | some p1 =>
    cases h2 : matchMarker (s.drop j') with
    | none => simp
    | some p2 =>
      obtain ⟨n1, c1⟩ := p1
      obtain ⟨n2, c2⟩ := p2
      simpa using h j j' n1 c1 n2 c2 hjj h1 h2

theorem noOverlap_drop {s : List Char} (hno : NoOverlap s) (k : Nat) :
    NoOverlap (s.drop k) := by
  refine noOverlap_of _ (fun j j' n c n' c' hjj h1 h2 => ?_)
  rw [List.drop_drop] at h1 h2
  have := noOverlap_apply hno h1 h2 (by omega)
  omega

theorem noOverlap_tail {c0 : Char} {cs : List Char} (hno : NoOverlap (c0 :: cs)) :
    NoOverlap cs := by
  have := noOverlap_drop hno 1
  simpa using this

theorem noOverlap_take {s : List Char} (hno : NoOverlap s) (a : Nat) :
    NoOverlap (s.take a) := by
  refine noOverlap_of _ (fun j j' n c n' c' hjj h1 h2 => ?_)
  rw [List.drop_take] at h1 h2
  obtain ⟨_, h1'⟩ := matchMarker_take_reflect h1
  obtain ⟨_, h2'⟩ := matchMarker_take_reflect h2
  exact noOverlap_apply hno h1' h2' hjj

theorem matchMarker_nil : matchMarker [] = none := by decide

theorem matchMarker_drop_ge {s : List Char} {j : Nat} (h : s.length ≤ j) :
    matchMarker (s.drop j) = none := by
  rw [List.drop_eq_nil_of_le h]
  exact matchMarker_nil

/-- Any two sufficient fuels compute the same marker scan. -/
theorem scanMarkersF_congr (fuel1 : Nat) : ∀ (fuel2 : Nat) (s : List Char),
    s.length ≤ fuel1 → s.length ≤ fuel2 →
    scanMarkersF fuel1 s = scanMarkersF fuel2 s := by
  induction fuel1 with
  | zero =>
    intro fuel2 s h1 _
    have hs : s = [] := List.eq_nil_of_length_eq_zero (by omega)
    subst hs
    cases fuel2 <;> rfl
  | succ f1 ih =>
    intro fuel2 s h1 h2
    cases s with
    | nil => cases fuel2 <;> rfl
    | cons c cs =>
      cases fuel2 with
      | zero => simp at h2
      | succ f2 =>
        simp only [scanMarkersF]
        cases hm : matchMarker (c :: cs) with
        | none =>
          exact ih f2 cs (by simpa using h1) (by simpa using h2)
        | some p =>
          obtain ⟨n, len⟩ := p
          have hlen := matchMarker_some_len hm
          have hd : (List.drop len (c :: cs)).length = (c :: cs).length - len :=
            List.length_drop len (c :: cs)
          have hcs : (c :: cs).length = cs.length + 1 := rfl
          show n :: scanMarkersF f1 (List.drop len (c :: cs)) =
            n :: scanMarkersF f2 (List.drop len (c :: cs))
          congr 1
          exact ih f2 (List.drop len (c :: cs)) (by omega) (by omega)

theorem scanMarkers_nil : scanMarkers [] = [] := rfl

theorem scanMarkers_cons_some {c : Char} {cs : List Char} {n len : Nat}
    (h : matchMarker (c :: cs) = some (n, len)) :
    scanMarkers (c :: cs) = n :: scanMarkers (List.drop len (c :: cs)) := by
  have hlen := matchMarker_some_len h
  have hd : (List.drop len (c :: cs)).length = (c :: cs).length - len :=
    List.length_drop len (c :: cs)
  have hcs : (c :: cs).length = cs.length + 1 := rfl
  show scanMarkersF (c :: cs).length (c :: cs) = _
  rw [hcs]
  simp only [scanMarkersF, h]
  congr 1
  exact scanMarkersF_congr cs.length (List.drop len (c :: cs)).length _
    (by omega) (le_refl _)

theorem scanMarkers_cons_none {c : Char} {cs : List Char}
    (h : matchMarker (c :: cs) = none) :
    scanMarkers (c :: cs) = scanMarkers cs := by
  show scanMarkersF (c :: cs).length (c :: cs) = _
  rw [show (c :: cs).length = cs.length + 1 from rfl]
  simp only [scanMarkersF, h]
  rfl

theorem scanMarkers_eq_nil {s : List Char}
    (h : ∀ j, matchMarker (s.drop j) = none) : scanMarkers s = [] := by
  induction s with
  | nil => rfl
  | cons c cs ih =>
    have h0 : matchMarker (c :: cs) = none := by
      have := h 0
      simpa using this
    rw [scanMarkers_cons_none h0]
    exact ih (fun j => by
      have := h (j + 1)
      simpa using this)

/-- Truncating the text can only truncate the marker scan: when markers
do not overlap, `findall` over a prefix of the text yields a prefix of
`findall` over the whole text. -/
theorem scanMarkers_take_pref : ∀ (L : Nat) (s : List Char), s.length ≤ L →
    NoOverlap s → ∀ a, ∃ t, scanMarkers (s.take a) ++ t = scanMarkers s := by
  intro L
  induction L with
  | zero =>
    intro s hs _ a
    have hnil : s = [] := List.eq_nil_of_length_eq_zero (by omega)
    subst hnil
    exact ⟨[], by simp [scanMarkers_nil]⟩
  | succ L ih =>
    intro s hs hno a
    cases s with
    | nil => exact ⟨[], by simp [scanMarkers_nil]⟩
    | cons c cs =>
      cases a with
      | zero => exact ⟨scanMarkers (c :: cs), by simp [scanMarkers_nil]⟩
      | succ a' =>
        have htake : (c :: cs).take (a' + 1) = c :: cs.take a' := rfl
        cases hm : matchMarker (c :: cs) with
        | none =>
          have hnone' : matchMarker (c :: cs.take a') = none := by
            cases hmt : matchMarker (c :: cs.take a') with
            | none => rfl
            | some p =>
              obtain ⟨n2, len2⟩ := p
              rw [← htake] at hmt
              obtain ⟨_, h2⟩ := matchMarker_take_reflect hmt
              rw [hm] at h2
              cases h2
          rw [htake, scanMarkers_cons_none hnone', scanMarkers_cons_none hm]
          exact ih cs (by simp at hs; omega) (noOverlap_tail hno) a'
        | some p =>
          obtain ⟨n, len⟩ := p
          have hlen := matchMarker_some_len hm
          by_cases hcase : len ≤ a' + 1
          · have hpres : matchMarker ((c :: cs).take (a' + 1)) = some (n, len) :=
              matchMarker_take_preserve hm hcase
            rw [htake] at hpres
            rw [htake, scanMarkers_cons_some hpres, scanMarkers_cons_some hm]
            have hdt : List.drop len (c :: cs.take a') =
                (List.drop len (c :: cs)).take (a' + 1 - len) := by
              rw [← htake, List.drop_take]
            rw [hdt]
            have hlen2 : (List.drop len (c :: cs)).length ≤ L := by
              have hld := List.length_drop len (c :: cs)
              simp at hs
              simp [hld]
              omega
            obtain ⟨t, ht⟩ := ih (List.drop len (c :: cs)) hlen2
              (noOverlap_drop hno len) (a' + 1 - len)
            exact ⟨t, by rw [List.cons_append, ht]⟩
          · have hempty : ∀ j, matchMarker (((c :: cs).take (a' + 1)).drop j) = none := by
              intro j
              cases hmt : matchMarker (((c :: cs).take (a' + 1)).drop j) with
              | none => rfl
              | some q =>
                obtain ⟨n2, len2⟩ := q
                exfalso
                rw [List.drop_take] at hmt
                obtain ⟨hle2, h2⟩ := matchMarker_take_reflect hmt
                cases j with
                | zero =>
                  rw [List.drop_zero] at h2
                  rw [hm] at h2
                  simp only [Option.some_inj, Prod.mk.injEq] at h2
                  omega
                | succ j' =>
                  have hov := noOverlap_apply hno
                    (show matchMarker ((c :: cs).drop 0) = some (n, len) by
                      simpa using hm) h2 (by omega)
                  have hl2 := matchMarker_some_len h2
                  omega
            have hz : scanMarkers ((c :: cs).take (a' + 1)) = [] :=
              scanMarkers_eq_nil hempty
            rw [hz]
            exact ⟨scanMarkers (c :: cs), by simp⟩

theorem mem_of_getLast?_eq {l : List Nat} {a : Nat} (h : l.getLast? = some a) :
    a ∈ l := by
  obtain ⟨hne, rfl⟩ := List.mem_getLast?_eq_getLast (show a ∈ l.getLast? by simp [h])
  exact List.getLast_mem hne

/-- Under the no-overlap invariant, the last element of the marker scan
is the value of the positionally last marker match. -/
theorem scanMarkers_getLast : ∀ (L : Nat) (s : List Char), s.length ≤ L →
    NoOverlap s → ∀ j n c, matchMarker (s.drop j) = some (n, c) →
    (∀ j', j < j' → matchMarker (s.drop j') = none) →
    (scanMarkers s).getLast? = some n := by
  intro L
  induction L with
  | zero =>
    intro s hs _ j n c hj _
    have hnil : s = [] := List.eq_nil_of_length_eq_zero (by omega)
    subst hnil
    rw [List.drop_nil, matchMarker_nil] at hj
    cases hj
  | succ L ih =>
    intro s hs hno j n c hj hlast
    cases s with
    | nil =>
      rw [List.drop_nil, matchMarker_nil] at hj
      cases hj
    | cons c0 cs =>
      cases hm : matchMarker (c0 :: cs) with
      | none =>
        cases j with
        | zero =>
          rw [List.drop_zero, hm] at hj
          cases hj
        | succ j1 =>
          rw [scanMarkers_cons_none hm]
          exact ih cs (by simp at hs; omega) (noOverlap_tail hno) j1 n c
            (by simpa using hj)
            (fun j' hj' => by
              have := hlast (j' + 1) (by omega)
              simpa using this)
      | some p =>
        obtain ⟨n0, len0⟩ := p
        have hlen0 := matchMarker_some_len hm
        rw [scanMarkers_cons_some hm]
        cases j with
        | zero =>
          rw [List.drop_zero, hm] at hj
          simp only [Option.some_inj, Prod.mk.injEq] at hj
          have hscan0 : scanMarkers (List.drop len0 (c0 :: cs)) = [] := by
            apply scanMarkers_eq_nil
            intro j2
            rw [List.drop_drop]
            exact hlast (len0 + j2) (by omega)
          rw [hscan0, hj.1]
          rfl
        | succ j1 =>
          have hov := noOverlap_apply hno
            (show matchMarker ((c0 :: cs).drop 0) = some (n0, len0) by simpa using hm)
            hj (by omega)
          have hj2 : matchMarker ((List.drop len0 (c0 :: cs)).drop (j1 + 1 - len0)) =
              some (n, c) := by
            rw [List.drop_drop]
            rw [show len0 + (j1 + 1 - len0) = j1 + 1 from by omega]
            exact hj
          have hlast2 : ∀ j', j1 + 1 - len0 < j' →
              matchMarker ((List.drop len0 (c0 :: cs)).drop j') = none := by
            intro j' hgt
            rw [List.drop_drop]
            exact hlast (len0 + j') (by omega)
          have hlenle : (List.drop len0 (c0 :: cs)).length ≤ L := by
            have hld := List.length_drop len0 (c0 :: cs)
            simp at hs
            simp [hld]
            omega
          have hrec := ih (List.drop len0 (c0 :: cs)) hlenle
            (noOverlap_drop hno len0) _ n c hj2 hlast2
          cases hsc : scanMarkers (List.drop len0 (c0 :: cs)) with
          | nil =>
            rw [hsc] at hrec
            cases hrec
          | cons z zs =>
            rw [hsc] at hrec
            rw [List.getLast?_cons_cons]
            exact hrec

/-- C3.  `extract_page_number` returns the value of the positionally
last page marker wholly contained in `text[:position]`, and 1 when no
marker is contained there. -/
theorem page_for_offset_spec (text : List Char) (position : Nat)
    (hno : NoOverlap (text.take position)) :
    ((∀ j, j < (text.take position).length →
        matchMarker ((text.take position).drop j) = none) →
      extract_page_number text position = 1) ∧
    (∀ j n c, matchMarker ((text.take position).drop j) = some (n, c) →
      (∀ j', j' < (text.take position).length → j < j' →
        matchMarker ((text.take position).drop j') = none) →
      extract_page_number text position = n) := by
  constructor
  · intro h
    have hz : scanMarkers (text.take position) = [] := by
      apply scanMarkers_eq_nil
      intro j
      by_cases hjlt : j < (text.take position).length
      · exact h j hjlt
      · exact matchMarker_drop_ge (by omega)
    unfold extract_page_number
    rw [hz]
    rfl
  · intro j n c hj hlast
    have hg := scanMarkers_getLast (text.take position).length (text.take position)
      (le_refl _) hno j n c hj
      (fun j' hgt => by
        by_cases hlt : j' < (text.take position).length
        · exact hlast j' hlt hgt
        · exact matchMarker_drop_ge (by omega))
    unfold extract_page_number
    rw [hg]

theorem page_for_offset_spec_witness :
    NoOverlap (("--- PAGE 2 --- x".toList).take 16) ∧
    matchMarker ((("--- PAGE 2 --- x".toList).take 16).drop 0) = some (2, 14) ∧
    extract_page_number ("--- PAGE 2 --- x".toList) 16 = 2 :=
  ⟨by decide, by decide,
    (page_for_offset_spec ("--- PAGE 2 --- x".toList) 16 (by decide)).2 0 2 14
      (by decide) (by decide)⟩

/-- C9.  For a document text satisfying the data-model invariant (marker
occurrences do not overlap, their values are 1-based and non-decreasing
along the text), `extract_page_number` is monotone non-decreasing in the
offset. -/
theorem page_for_offset_mono (text : List Char) (a b : Nat) (hab : a ≤ b)
    (hno : NoOverlap text)
    (hsort : List.Sorted (· ≤ ·) (scanMarkers text))
    (hpos : ∀ n ∈ scanMarkers text, 1 ≤ n) :
    extract_page_number text a ≤ extract_page_number text b := by
  obtain ⟨t2, ht2⟩ := scanMarkers_take_pref text.length text (le_refl _) hno b
  have htt : text.take a = (text.take b).take a := by
    rw [List.take_take, Nat.min_eq_left hab]
  obtain ⟨t1, ht1⟩ := scanMarkers_take_pref (text.take b).length (text.take b)
    (le_refl _) (noOverlap_take hno b) a
  rw [← htt] at ht1
  have hsortb : List.Sorted (· ≤ ·) (scanMarkers (text.take b)) := by
    rw [← ht2] at hsort
    exact (List.pairwise_append.mp hsort).1
  have hposb : ∀ n ∈ scanMarkers (text.take b), 1 ≤ n := by
    intro n hn
    apply hpos
    rw [← ht2]
    exact List.mem_append_left _ hn
  unfold extract_page_number
  cases hA : (scanMarkers (text.take a)).getLast? with
  | none =>
    cases hB : (scanMarkers (text.take b)).getLast? with
    | none => exact le_refl 1
    | some nb => exact hposb nb (mem_of_getLast?_eq hB)
  | some na =>
    cases ht1' : t1 with
    | nil =>
      have heq : scanMarkers (text.take a) = scanMarkers (text.take b) := by
        rw [← ht1, ht1']
        simp
      rw [← heq, hA]
    | cons x xs =>
      obtain ⟨y, hy⟩ : ∃ y, (x :: xs).getLast? = some y :=
        ⟨(x :: xs).getLast (by simp), List.getLast?_eq_getLast_of_ne_nil (by simp)⟩
      have hna : na ∈ scanMarkers (text.take a) := mem_of_getLast?_eq hA
      have hyy : y ∈ t1 := by
        rw [ht1']
        exact mem_of_getLast?_eq hy
      have hpw : List.Pairwise (· ≤ ·) (scanMarkers (text.take a) ++ t1) := by
        rw [ht1]
        exact hsortb
      have hrel := (List.pairwise_append.mp hpw).2.2 na hna y hyy
      have hgb : (scanMarkers (text.take b)).getLast? = some y := by
        rw [← ht1, ht1', List.getLast?_append_of_ne_nil _ (List.cons_ne_nil x xs)]
        exact hy
      rw [hgb]
      exact hrel

theorem page_for_offset_mono_witness :
    NoOverlap ("--- PAGE 1 --- x --- PAGE 2 --- y".toList) ∧
    List.Sorted (· ≤ ·) (scanMarkers ("--- PAGE 1 --- x --- PAGE 2 --- y".toList)) ∧
    (∀ n ∈ scanMarkers ("--- PAGE 1 --- x --- PAGE 2 --- y".toList), 1 ≤ n) ∧
    extract_page_number ("--- PAGE 1 --- x --- PAGE 2 --- y".toList) 5 ≤
      extract_page_number ("--- PAGE 1 --- x --- PAGE 2 --- y".toList) 33 :=
  ⟨by decide, by decide, by decide,
    page_for_offset_mono ("--- PAGE 1 --- x --- PAGE 2 --- y".toList) 5 33
      (by omega) (by decide) (by decide) (by decide)⟩

end Enrich
